import Mathlib

/-!
Verification of the data-processing core of whats-blocking.py.

The script downloads (or loads) NextDNS blocked-log entries, builds a
mapping from domain to the set of blocklist ids that blocked it
(json_to_domdata), reconciles it with a persisted store
(update_domdata_store), inverts it (domdata_to_blistdata) and classifies
blocklists into "solo" and "combo" groups with a redundancy histogram
(print_domdata).

Python dicts preserve insertion order and assignment to an existing key
updates the value in place; we model dicts as association lists with the
matching dictInsert operation.  Python sets of strings become
Finset String.
-/

namespace WhatsBlocking

/-- One element of an entry's "reasons" array; the script only reads its
"id" field. -/
structure Reason where
  id : String
deriving DecidableEq, Repr

/-- One log entry, with the fields the script reads: "domain" and
"reasons". -/
structure LogEntry where
  domain : String
  reasons : List Reason
deriving DecidableEq, Repr

/-- d[domain] = set of blocklist ids, as an insertion-ordered dict. -/
abbrev DomData := List (String × Finset String)

/-- d[blist_id] = set of domains, as an insertion-ordered dict. -/
abbrev BlistData := List (String × Finset String)

/-- Dict lookup: first binding of the key in the association list. -/
def alookup {κ α : Type} [DecidableEq κ] (k : κ) : List (κ × α) → Option α
  | [] => none
  | p :: rest => if k = p.1 then some p.2 else alookup k rest

/-- Python dict assignment d[k] = v: update in place if the key exists
(keeping its position), else append at the end. -/
def dictInsert {κ α : Type} [DecidableEq κ] (k : κ) (v : α) :
    List (κ × α) → List (κ × α)
  | [] => [(k, v)]
  | p :: rest => if k = p.1 then (k, v) :: rest else p :: dictInsert k v rest

/-- json_to_domdata: for each entry, output[entry.domain] =
the set of reason ids of that entry. -/
def json_to_domdata (jsondata : List LogEntry) : DomData :=
  jsondata.foldl
    (fun output entry =>
      dictInsert entry.domain (entry.reasons.map Reason.id).toFinset output)
    []

/-- defaultdict(set) operation d[k].add(v): insert v into the set bound to
k, creating the binding (appended at the end) if absent. -/
def addToSetDict {κ : Type} [DecidableEq κ] (k : κ) (v : String) :
    List (κ × Finset String) → List (κ × Finset String)
  | [] => [(k, {v})]
  | p :: rest =>
    if k = p.1 then (p.1, insert v p.2) :: rest else p :: addToSetDict k v rest

/-- Reading a defaultdict(set): missing keys read as the empty set. -/
def lookupSet {κ : Type} [DecidableEq κ]
    (dict : List (κ × Finset String)) (k : κ) : Finset String :=
  (alookup k dict).getD ∅

/-- The sorted list of a set of strings, as produced by Python's
sorted(); also our iteration order over a set (Python's is
unspecified). -/
def sortF (s : Finset String) : List String := s.sort (· ≤ ·)

/-- domdata_to_blistdata: for every domain and every blocklist id in its
set, add the domain to that blocklist's set. -/
def domdata_to_blistdata (domdata : DomData) : BlistData :=
  domdata.foldl
    (fun blistdata p =>
      (sortF p.2).foldl (fun bd blist => addToSetDict blist p.1 bd) blistdata)
    []

/-- One drift warning printed by update_domdata_store: the domain, the
list printed on the "Was:" line and the list printed on the "Now:"
line. -/
structure DriftWarning where
  domain : String
  wasLine : List String
  nowLine : List String
deriving DecidableEq, Repr

/-- The loop of update_domdata_store over the loaded store jsondata: for
each stored (dom, stored-list), if dom is in domdata then warn when
set(stored-list) differs from domdata[dom] — printing sorted(domdata[dom])
on the "Was:" line and sorted(set(stored-list)) on the "Now:" line — and
keep domdata[dom]; otherwise set domdata[dom] = set(stored-list). -/
def reconcileLoop : List (String × List String) → DomData →
    List DriftWarning × DomData
  | [], domdata => ([], domdata)
  | (dom, stored) :: rest, domdata =>
    match alookup dom domdata with
    | some current =>
      let r := reconcileLoop rest domdata
      if stored.toFinset ≠ current then
        (⟨dom, sortF current, sortF stored.toFinset⟩ :: r.1, r.2)
      else r
    | none => reconcileLoop rest (domdata ++ [(dom, stored.toFinset)])

/-- The file system as seen by update_domdata_store: a map from file name
to the JSON content (a dict from domain to a list of blocklist ids), or
none when the file does not exist. -/
abbrev Store := String → Option (List (String × List String))

/-- Serialization performed before json.dump: each set becomes a list
(written here in sorted order, one stable choice of Python's arbitrary
list(set) order). -/
def serializeDomData (domdata : DomData) : List (String × List String) :=
  domdata.map (fun p => (p.1, sortF p.2))

/-- update_domdata_store: load name ++ ".domdata.json" (a missing file
reads as the empty dict), run the reconcile loop, then write the
serialized result back to the same file.  Returns the warnings, the
reconciled domdata and the updated file system. -/
def update_domdata_store (name : String) (domdata : DomData)
    (store : Store) : List DriftWarning × DomData × Store :=
  let fname := name ++ ".domdata.json"
  let r := reconcileLoop ((store fname).getD []) domdata
  (r.1, r.2, fun k => if k = fname then some (serializeDomData r.2) else store k)

/-- list(s)[0] for a Python set s: some element of the set (the head of
its sorted listing; "" on the empty set, unreachable in the script's
use since it is only taken when the set has exactly one element). -/
def singletonElem (s : Finset String) : String := (sortF s).headI

/-- Pass 1 of print_domdata: solos[blist].add(dom) for every dom whose
set has exactly one element blist. -/
def buildSolos (domdata : DomData) : List (String × Finset String) :=
  domdata.foldl
    (fun solos p =>
      if p.2.card = 1 then addToSetDict (singletonElem p.2) p.1 solos else solos)
    []

/-- solos.keys() after pass 1: the set of blocklist ids that appear alone
for some domain. -/
def soloKeys (domdata : DomData) : Finset String :=
  ((buildSolos domdata).map Prod.fst).toFinset

/-- Pass 2 of print_domdata: skip domains whose set meets solos.keys();
otherwise combos[tuple(sorted(set))].add(dom). -/
def buildCombos (domdata : DomData) : List (List String × Finset String) :=
  domdata.foldl
    (fun combos p =>
      if soloKeys domdata ∩ p.2 = ∅ then addToSetDict (sortF p.2) p.1 combos
      else combos)
    []

/-- defaultdict(list) operation d[k].append(n). -/
def listDictAppend (k : String) (n : Nat) :
    List (String × List Nat) → List (String × List Nat)
  | [] => [(k, [n])]
  | p :: rest =>
    if k = p.1 then (p.1, p.2 ++ [n]) :: rest else p :: listDictAppend k n rest

/-- The overlap dict of print_domdata: for every domain and every blist in
its set, append len(domdata[dom]) to overlap[blist]. -/
def buildOverlap (domdata : DomData) : List (String × List Nat) :=
  domdata.foldl
    (fun overlap p =>
      (sortF p.2).foldl (fun ov blist => listDictAppend blist p.2.card ov) overlap)
    []

/-- Reading the overlap defaultdict(list): missing keys read as []. -/
def lookupLevels (overlap : List (String × List Nat)) (k : String) : List Nat :=
  (alookup k overlap).getD []

/-- level_hist of the redundancy histogram for one blocklist: the count of
each co-occurrence level in its overlap list. -/
def levelHist (levels : List Nat) (n : Nat) : Nat := levels.count n

/-- The keys of a dict are pairwise distinct (always true of a Python
dict; association lists built by dictInsert satisfy it). -/
def keysNodup {κ α : Type} (l : List (κ × α)) : Prop :=
  (l.map Prod.fst).Nodup

instance {κ α : Type} [DecidableEq κ] (l : List (κ × α)) :
    Decidable (keysNodup l) := by
  unfold keysNodup; infer_instance

/-! ### Association-list lemmas -/

variable {κ α : Type} [DecidableEq κ]

omit [DecidableEq κ] in
lemma keysNodup_cons {p : κ × α} {l : List (κ × α)} :
    keysNodup (p :: l) ↔ p.1 ∉ l.map Prod.fst ∧ keysNodup l := by
  simp [keysNodup]

lemma alookup_dictInsert (k : κ) (v : α) (l : List (κ × α)) (d : κ) :
    alookup d (dictInsert k v l) = if d = k then some v else alookup d l := by
  induction l with
  | nil => simp [dictInsert, alookup]
  | cons p rest ih =>
    obtain ⟨a, b⟩ := p
    by_cases hk : k = a
    · by_cases hd : d = k
      · simp [dictInsert, hk, alookup, hd]
      · have hdp : d ≠ a := fun h => hd (h.trans hk.symm)
        simp [dictInsert, hk, alookup, hd, hdp]
    · have h1 : dictInsert k v ((a, b) :: rest) = (a, b) :: dictInsert k v rest := by
        simp [dictInsert, hk]
      rw [h1]
      by_cases hd : d = a
      · have hdk : d ≠ k := fun he => hk (by rw [← he, hd])
        have hak : ¬a = k := fun h => hk h.symm
        simp [alookup, hd, hdk, hak]
      · have h2 : alookup d ((a, b) :: dictInsert k v rest) =
            alookup d (dictInsert k v rest) := by simp [alookup, hd]
        rw [h2, ih]
        by_cases hdk : d = k
        · simp [hdk]
        · simp [hdk, alookup, hd]

lemma alookup_append_some {A B : List (κ × α)} {d : κ} {s : α}
    (h : alookup d A = some s) : alookup d (A ++ B) = some s := by
  induction A with
  | nil => simp [alookup] at h
  | cons p rest ih =>
    by_cases hd : d = p.1
    · simp [alookup, hd] at h ⊢; exact h
    · simp [alookup, hd] at h ⊢; exact ih h

lemma alookup_append_none {A : List (κ × α)} {d : κ}
    (h : alookup d A = none) (B : List (κ × α)) :
    alookup d (A ++ B) = alookup d B := by
  induction A with
  | nil => simp
  | cons p rest ih =>
    by_cases hd : d = p.1
    · simp [alookup, hd] at h
    · simp [alookup, hd] at h ⊢; exact ih h

lemma alookup_eq_none_iff {l : List (κ × α)} {d : κ} :
    alookup d l = none ↔ d ∉ l.map Prod.fst := by
  induction l with
  | nil => simp [alookup]
  | cons p rest ih =>
    by_cases hd : d = p.1
    · simp [alookup, hd]
    · simp [alookup, hd, ih]

lemma mem_of_alookup_eq_some {l : List (κ × α)} {d : κ} {s : α}
    (h : alookup d l = some s) : (d, s) ∈ l := by
  induction l with
  | nil => simp [alookup] at h
  | cons p rest ih =>
    obtain ⟨a, b⟩ := p
    by_cases hd : d = a
    · simp [alookup, hd] at h
      exact List.mem_cons.2 (Or.inl (by rw [hd, h]))
    · simp [alookup, hd] at h
      exact List.mem_cons_of_mem _ (ih h)

lemma alookup_of_mem_nodup {l : List (κ × α)} {d : κ} {s : α}
    (hn : keysNodup l) (h : (d, s) ∈ l) : alookup d l = some s := by
  induction l with
  | nil => simp at h
  | cons p rest ih =>
    obtain ⟨a, b⟩ := p
    have hn1 := keysNodup_cons.1 hn
    rcases List.mem_cons.1 h with h1 | h1
    · obtain ⟨rfl, rfl⟩ : d = a ∧ s = b := by simpa [Prod.ext_iff] using h1
      simp [alookup]
    · have hd : d ≠ a := by
        intro he
        apply hn1.1
        rw [← he]
        exact List.mem_map.2 ⟨(d, s), h1, rfl⟩
      simp [alookup, hd]
      exact ih hn1.2 h1

lemma alookup_ne_none_of_mem {l : List (κ × α)} {d : κ} {s : α}
    (h : (d, s) ∈ l) : alookup d l ≠ none := by
  intro hnone
  exact (alookup_eq_none_iff.1 hnone) (List.mem_map.2 ⟨(d, s), h, rfl⟩)

/-! ### json_to_domdata: which occurrence of a duplicated domain wins -/

/-- The set of blocklist ids of one entry, as built on line 29 of the
script. -/
def entryBlists (e : LogEntry) : Finset String :=
  (e.reasons.map Reason.id).toFinset

lemma json_to_domdata_concat (es : List LogEntry) (e : LogEntry) :
    json_to_domdata (es ++ [e]) =
      dictInsert e.domain (entryBlists e) (json_to_domdata es) := by
  simp [json_to_domdata, List.foldl_append, entryBlists]

lemma alookup_json_to_domdata (entries : List LogEntry) (d : String) :
    alookup d (json_to_domdata entries) =
      ((entries.filter (fun e => e.domain == d)).getLast?).map entryBlists := by
  induction entries using List.reverseRecOn with
  | nil => simp [json_to_domdata, alookup]
  | append_singleton es e ih =>
    rw [json_to_domdata_concat, alookup_dictInsert]
    by_cases hd : d = e.domain
    · have : (fun e : LogEntry => e.domain == d) e = true := by simp [hd]
      rw [List.filter_append]
      simp only [List.filter_cons, List.filter_nil, this]
      simp [hd]
    · have : (fun e : LogEntry => e.domain == d) e = false := by
        simp
        intro h
        exact absurd h.symm hd
      rw [List.filter_append]
      simp only [List.filter_cons, List.filter_nil, this]
      simp [hd, ih]

/-! ### reconcileLoop lemmas -/

lemma alookup_append_none_iff {A B : List (κ × α)} {d : κ} :
    alookup d (A ++ B) = none ↔ alookup d A = none ∧ alookup d B = none := by
  simp [alookup_eq_none_iff, not_or]

lemma reconcileLoop_alookup_some {P : List (String × List String)}
    {A : DomData} {d : String} {s : Finset String}
    (h : alookup d A = some s) :
    alookup d (reconcileLoop P A).2 = some s := by
  induction P generalizing A with
  | nil => simpa [reconcileLoop]
  | cons q rest ih =>
    obtain ⟨dom, stored⟩ := q
    cases hc : alookup dom A with
    | some current =>
      simp only [reconcileLoop, hc]
      by_cases hne : stored.toFinset ≠ current
      · rw [if_pos hne]; exact ih h
      · rw [if_neg hne]; exact ih h
    | none =>
      simp only [reconcileLoop, hc]
      exact ih (alookup_append_some h)

lemma reconcileLoop_alookup_none {P : List (String × List String)}
    {A : DomData} {d : String}
    (h : alookup d A = none) :
    alookup d (reconcileLoop P A).2 = (alookup d P).map List.toFinset := by
  induction P generalizing A with
  | nil => simpa [reconcileLoop, alookup]
  | cons q rest ih =>
    obtain ⟨dom, stored⟩ := q
    by_cases hd : d = dom
    · have hc : alookup dom A = none := by rw [← hd]; exact h
      simp only [reconcileLoop, hc]
      have hsome : alookup d (A ++ [(dom, stored.toFinset)]) =
          some stored.toFinset := by
        rw [alookup_append_none h]
        simp [alookup, hd]
      rw [reconcileLoop_alookup_some hsome]
      simp [alookup, hd]
    · have hrhs : alookup d ((dom, stored) :: rest) = alookup d rest := by
        simp [alookup, hd]
      rw [hrhs]
      cases hc : alookup dom A with
      | some current =>
        simp only [reconcileLoop, hc]
        by_cases hne : stored.toFinset ≠ current
        · rw [if_pos hne]; exact ih h
        · rw [if_neg hne]; exact ih h
      | none =>
        simp only [reconcileLoop, hc]
        have h' : alookup d (A ++ [(dom, stored.toFinset)]) = none := by
          rw [alookup_append_none h]
          simp [alookup, hd]
        exact ih h'

lemma reconcileLoop_shape (P : List (String × List String)) (A : DomData) :
    ∃ E : DomData, (reconcileLoop P A).2 = A ++ E ∧ keysNodup E ∧
      ∀ p ∈ E, alookup p.1 A = none := by
  induction P generalizing A with
  | nil => exact ⟨[], by simp [reconcileLoop], by simp [keysNodup], by simp⟩
  | cons q rest ih =>
    obtain ⟨dom, stored⟩ := q
    cases hc : alookup dom A with
    | some current =>
      simp only [reconcileLoop, hc]
      by_cases hne : stored.toFinset ≠ current
      · rw [if_pos hne]; exact ih A
      · rw [if_neg hne]; exact ih A
    | none =>
      simp only [reconcileLoop, hc]
      obtain ⟨E, hE, hEn, hEl⟩ := ih (A ++ [(dom, stored.toFinset)])
      refine ⟨(dom, stored.toFinset) :: E, ?_, ?_, ?_⟩
      · rw [hE]; simp
      · rw [keysNodup_cons]
        refine ⟨?_, hEn⟩
        intro hmem
        obtain ⟨p, hp, hp1⟩ := List.mem_map.1 hmem
        have := hEl p hp
        rw [alookup_append_none_iff] at this
        have h2 := this.2
        rw [alookup_eq_none_iff] at h2
        exact h2 (by simp [hp1])
      · intro p hp
        rcases List.mem_cons.1 hp with h1 | h1
        · rw [h1]; exact hc
        · exact (alookup_append_none_iff.1 (hEl p h1)).1

lemma reconcileLoop_noop {P : List (String × List String)} {A : DomData}
    (h : ∀ p ∈ P, alookup p.1 A = some p.2.toFinset) :
    reconcileLoop P A = ([], A) := by
  induction P with
  | nil => rfl
  | cons q rest ih =>
    obtain ⟨dom, stored⟩ := q
    have hq : alookup dom A = some stored.toFinset :=
      h (dom, stored) (List.mem_cons_self _ _)
    simp only [reconcileLoop, hq]
    rw [if_neg (fun hne => hne rfl)]
    exact ih (fun p hp => h p (List.mem_cons_of_mem _ hp))

lemma reconcileLoop_all_new {P : List (String × List String)} {A : DomData}
    (hn : keysNodup P) (h : ∀ p ∈ P, alookup p.1 A = none) :
    reconcileLoop P A = ([], A ++ P.map (fun p => (p.1, p.2.toFinset))) := by
  induction P generalizing A with
  | nil => simp [reconcileLoop]
  | cons q rest ih =>
    obtain ⟨dom, stored⟩ := q
    have hq : alookup dom A = none := h (dom, stored) (List.mem_cons_self _ _)
    simp only [reconcileLoop, hq]
    have hn1 := keysNodup_cons.1 hn
    rw [ih hn1.2 ?_]
    · simp
    · intro p hp
      rw [alookup_append_none_iff]
      refine ⟨h p (List.mem_cons_of_mem _ hp), ?_⟩
      rw [alookup_eq_none_iff]
      simp only [List.map_cons, List.map_nil, List.mem_singleton]
      intro he
      exact hn1.1 (he ▸ List.mem_map.2 ⟨p, hp, rfl⟩)

lemma reconcileLoop_append (P Q : List (String × List String)) (A : DomData) :
    reconcileLoop (P ++ Q) A =
      ((reconcileLoop P A).1 ++ (reconcileLoop Q (reconcileLoop P A).2).1,
       (reconcileLoop Q (reconcileLoop P A).2).2) := by
  induction P generalizing A with
  | nil => simp [reconcileLoop]
  | cons q rest ih =>
    obtain ⟨dom, stored⟩ := q
    cases hc : alookup dom A with
    | some current =>
      simp only [List.cons_append, reconcileLoop, hc, List.append_eq]
      by_cases hne : stored.toFinset ≠ current
      · rw [if_pos hne, if_pos hne, ih]; simp
      · rw [if_neg hne, if_neg hne, ih]
    | none =>
      simp only [List.cons_append, reconcileLoop, hc, List.append_eq]
      exact ih _

lemma reconcileLoop_warnings_mem {P : List (String × List String)}
    {A : DomData} {d : String} {s : Finset String}
    (hd : alookup d A = some s) (w : DriftWarning) :
    (w ∈ (reconcileLoop P A).1 ∧ w.domain = d) ↔
      ∃ l, (d, l) ∈ P ∧ l.toFinset ≠ s ∧
        w = ⟨d, sortF s, sortF l.toFinset⟩ := by
  induction P generalizing A with
  | nil => simp [reconcileLoop]
  | cons q rest ih =>
    obtain ⟨dom, stored⟩ := q
    cases hc : alookup dom A with
    | some current =>
      simp only [reconcileLoop, hc]
      by_cases hne : stored.toFinset ≠ current
      · rw [if_pos hne]
        constructor
        · rintro ⟨hw, hwd⟩
          rcases List.mem_cons.1 hw with h1 | h1
          · have hdomd : dom = d := by rw [h1] at hwd; exact hwd
            subst hdomd
            have hcs : current = s := Option.some.inj (hc.symm.trans hd)
            refine ⟨stored, List.mem_cons_self _ _, ?_, ?_⟩
            · rw [hcs] at hne; exact hne
            · rw [h1, hcs]
          · obtain ⟨l, hl, hlne, hw2⟩ := (ih hd).1 ⟨h1, hwd⟩
            exact ⟨l, List.mem_cons_of_mem _ hl, hlne, hw2⟩
        · rintro ⟨l, hl, hlne, hw2⟩
          rcases List.mem_cons.1 hl with h1 | h1
          · rw [Prod.mk.injEq] at h1
            obtain ⟨h1a, h1b⟩ := h1
            subst h1a
            subst h1b
            have hcs : current = s := Option.some.inj (hc.symm.trans hd)
            refine ⟨List.mem_cons.2 (Or.inl ?_), by rw [hw2]⟩
            rw [hw2, hcs]
          · have hm := (ih hd).2 ⟨l, h1, hlne, hw2⟩
            exact ⟨List.mem_cons_of_mem _ hm.1, hm.2⟩
      · rw [if_neg hne]
        push_neg at hne
        rw [ih hd]
        constructor
        · rintro ⟨l, hl, hlne, hw2⟩
          exact ⟨l, List.mem_cons_of_mem _ hl, hlne, hw2⟩
        · rintro ⟨l, hl, hlne, hw2⟩
          rcases List.mem_cons.1 hl with h1 | h1
          · exfalso
            rw [Prod.mk.injEq] at h1
            obtain ⟨h1a, h1b⟩ := h1
            subst h1a
            subst h1b
            have hcs : current = s := Option.some.inj (hc.symm.trans hd)
            exact hlne (hne.trans hcs)
          · exact ⟨l, h1, hlne, hw2⟩
    | none =>
      have hdd : d ≠ dom := by
        intro he
        rw [← he] at hc
        rw [hd] at hc
        cases hc
      simp only [reconcileLoop, hc]
      rw [ih (alookup_append_some hd)]
      constructor
      · rintro ⟨l, hl, hlne, hw2⟩
        exact ⟨l, List.mem_cons_of_mem _ hl, hlne, hw2⟩
      · rintro ⟨l, hl, hlne, hw2⟩
        rcases List.mem_cons.1 hl with h1 | h1
        · exact absurd (congrArg Prod.fst h1) hdd
        · exact ⟨l, h1, hlne, hw2⟩

/-! ### addToSetDict and the solo/combo classification -/

lemma lookupSet_addToSetDict_self (k : κ) (v : String)
    (l : List (κ × Finset String)) :
    lookupSet (addToSetDict k v l) k = insert v (lookupSet l k) := by
  induction l with
  | nil => simp [addToSetDict, lookupSet, alookup]
  | cons p rest ih =>
    obtain ⟨a, b⟩ := p
    by_cases hk : k = a
    · simp [addToSetDict, hk, lookupSet, alookup]
    · simp only [addToSetDict, if_neg hk]
      have h1 : lookupSet ((a, b) :: addToSetDict k v rest) k =
          lookupSet (addToSetDict k v rest) k := by
        simp [lookupSet, alookup, hk]
      have h2 : lookupSet ((a, b) :: rest) k = lookupSet rest k := by
        simp [lookupSet, alookup, hk]
      rw [h1, h2, ih]

lemma lookupSet_addToSetDict_ne {k k' : κ} (h : k' ≠ k) (v : String)
    (l : List (κ × Finset String)) :
    lookupSet (addToSetDict k v l) k' = lookupSet l k' := by
  induction l with
  | nil => simp [addToSetDict, lookupSet, alookup, h]
  | cons p rest ih =>
    obtain ⟨a, b⟩ := p
    by_cases hk : k = a
    · have hk' : k' ≠ a := fun he => h (he.trans hk.symm)
      simp [addToSetDict, hk, lookupSet, alookup, hk']
    · by_cases hk2 : k' = a
      · simp [addToSetDict, hk, lookupSet, alookup, hk2]
      · simp only [addToSetDict, if_neg hk]
        have h1 : lookupSet ((a, b) :: addToSetDict k v rest) k' =
            lookupSet (addToSetDict k v rest) k' := by
          simp [lookupSet, alookup, hk2]
        have h2 : lookupSet ((a, b) :: rest) k' = lookupSet rest k' := by
          simp [lookupSet, alookup, hk2]
        rw [h1, h2, ih]

lemma mem_lookupSet_addToSetDict {k k' : κ} {v x : String}
    {l : List (κ × Finset String)} :
    x ∈ lookupSet (addToSetDict k v l) k' ↔
      (k' = k ∧ x = v) ∨ x ∈ lookupSet l k' := by
  by_cases hk : k' = k
  · subst hk
    rw [lookupSet_addToSetDict_self]
    simp
  · rw [lookupSet_addToSetDict_ne hk]
    simp [hk]

lemma addToSetDict_values_nonempty {l : List (κ × Finset String)}
    (k : κ) (v : String) (h : ∀ p ∈ l, p.2.Nonempty) :
    ∀ p ∈ addToSetDict k v l, p.2.Nonempty := by
  induction l with
  | nil =>
    intro p hp
    simp [addToSetDict] at hp
    rw [hp]
    exact Finset.singleton_nonempty v
  | cons q rest ih =>
    obtain ⟨a, b⟩ := q
    by_cases hk : k = a
    · intro p hp
      simp only [addToSetDict, if_pos hk] at hp
      rcases List.mem_cons.1 hp with h1 | h1
      · rw [h1]
        exact Finset.insert_nonempty v b
      · exact h p (List.mem_cons_of_mem _ h1)
    · intro p hp
      simp only [addToSetDict, if_neg hk] at hp
      rcases List.mem_cons.1 hp with h1 | h1
      · rw [h1]
        exact h (a, b) (List.mem_cons_self _ _)
      · exact ih (fun q hq => h q (List.mem_cons_of_mem _ hq)) p h1

lemma singletonElem_singleton (a : String) : singletonElem {a} = a := by
  rw [singletonElem, sortF, Finset.sort_singleton]
  rfl

/-- The unique element of a one-element set is its singletonElem. -/
lemma eq_singleton_of_card_one {s : Finset String} (h : s.card = 1) :
    s = {singletonElem s} := by
  obtain ⟨a, ha⟩ := Finset.card_eq_one.1 h
  subst ha
  rw [singletonElem, sortF, Finset.sort_singleton]
  rfl

lemma mem_lookupSet_buildSolosAux (dd : DomData)
    (acc : List (String × Finset String)) (b x : String) :
    x ∈ lookupSet
        (dd.foldl
          (fun solos p =>
            if p.2.card = 1 then addToSetDict (singletonElem p.2) p.1 solos
            else solos)
          acc) b ↔
      x ∈ lookupSet acc b ∨ (x, ({b} : Finset String)) ∈ dd := by
  induction dd generalizing acc with
  | nil => simp
  | cons p rest ih =>
    obtain ⟨dom, s⟩ := p
    simp only [List.foldl_cons]
    rw [ih]
    by_cases h1 : s.card = 1
    · rw [if_pos h1, mem_lookupSet_addToSetDict]
      constructor
      · rintro ((⟨hb, hx⟩ | hacc) | hrest)
        · refine Or.inr (List.mem_cons.2 (Or.inl ?_))
          rw [hx, Prod.mk.injEq]
          refine ⟨rfl, ?_⟩
          rw [hb]
          exact (eq_singleton_of_card_one h1).symm
        · exact Or.inl hacc
        · exact Or.inr (List.mem_cons_of_mem _ hrest)
      · rintro (hacc | hm)
        · exact Or.inl (Or.inr hacc)
        · rcases List.mem_cons.1 hm with h2 | h2
          · rw [Prod.mk.injEq] at h2
            obtain ⟨h2a, h2b⟩ := h2
            refine Or.inl (Or.inl ⟨?_, h2a⟩)
            rw [← h2b, singletonElem_singleton]
          · exact Or.inr h2
    · rw [if_neg h1]
      constructor
      · rintro (hacc | hrest)
        · exact Or.inl hacc
        · exact Or.inr (List.mem_cons_of_mem _ hrest)
      · rintro (hacc | hm)
        · exact Or.inl hacc
        · rcases List.mem_cons.1 hm with h2 | h2
          · exfalso
            apply h1
            rw [Prod.mk.injEq] at h2
            rw [← h2.2]
            exact Finset.card_singleton b
          · exact Or.inr h2

lemma mem_soloSet (dd : DomData) (b x : String) :
    x ∈ lookupSet (buildSolos dd) b ↔ (x, ({b} : Finset String)) ∈ dd := by
  rw [buildSolos, mem_lookupSet_buildSolosAux]
  simp [lookupSet, alookup]

lemma buildSolos_values_nonempty (dd : DomData) :
    ∀ p ∈ buildSolos dd, p.2.Nonempty := by
  rw [buildSolos]
  generalize hacc : ([] : List (String × Finset String)) = acc
  have hbase : ∀ p ∈ acc, p.2.Nonempty := by rw [← hacc]; simp
  clear hacc
  induction dd generalizing acc with
  | nil => exact hbase
  | cons p rest ih =>
    obtain ⟨dom, s⟩ := p
    simp only [List.foldl_cons]
    by_cases h1 : s.card = 1
    · rw [if_pos h1]
      exact ih _ (addToSetDict_values_nonempty _ _ hbase)
    · rw [if_neg h1]
      exact ih _ hbase

lemma mem_soloKeys (dd : DomData) (b : String) :
    b ∈ soloKeys dd ↔ ∃ x, (x, ({b} : Finset String)) ∈ dd := by
  rw [soloKeys, List.mem_toFinset]
  constructor
  · intro hb
    cases hs : alookup b (buildSolos dd) with
    | none => exact absurd (alookup_eq_none_iff.1 hs) (by simp [hb])
    | some s =>
      have hmem := mem_of_alookup_eq_some hs
      obtain ⟨x, hx⟩ := buildSolos_values_nonempty dd (b, s) hmem
      refine ⟨x, ?_⟩
      rw [← mem_soloSet]
      simpa [lookupSet, hs] using hx
  · rintro ⟨x, hx⟩
    rw [← mem_soloSet] at hx
    cases hs : alookup b (buildSolos dd) with
    | none => simp [lookupSet, hs] at hx
    | some s =>
      have := mem_of_alookup_eq_some hs
      exact List.mem_map.2 ⟨(b, s), this, rfl⟩

lemma mem_lookupSet_buildCombosAux (dd ds : DomData)
    (acc : List (List String × Finset String)) (k : List String) (x : String) :
    x ∈ lookupSet
        (ds.foldl
          (fun combos p =>
            if soloKeys dd ∩ p.2 = ∅ then addToSetDict (sortF p.2) p.1 combos
            else combos)
          acc) k ↔
      x ∈ lookupSet acc k ∨
        ∃ s, (x, s) ∈ ds ∧ soloKeys dd ∩ s = ∅ ∧ sortF s = k := by
  induction ds generalizing acc with
  | nil => simp
  | cons p rest ih =>
    obtain ⟨dom, s⟩ := p
    simp only [List.foldl_cons]
    rw [ih]
    by_cases h1 : soloKeys dd ∩ s = ∅
    · rw [if_pos h1, mem_lookupSet_addToSetDict]
      constructor
      · rintro ((⟨hk, hx⟩ | hacc) | ⟨s2, hs2, hs2i, hs2k⟩)
        · exact Or.inr ⟨s, List.mem_cons.2 (Or.inl (by rw [hx])), h1, hk.symm⟩
        · exact Or.inl hacc
        · exact Or.inr ⟨s2, List.mem_cons_of_mem _ hs2, hs2i, hs2k⟩
      · rintro (hacc | ⟨s2, hs2, hs2i, hs2k⟩)
        · exact Or.inl (Or.inr hacc)
        · rcases List.mem_cons.1 hs2 with h2 | h2
          · rw [Prod.mk.injEq] at h2
            refine Or.inl (Or.inl ⟨?_, h2.1⟩)
            rw [← hs2k, h2.2]
          · exact Or.inr ⟨s2, h2, hs2i, hs2k⟩
    · rw [if_neg h1]
      constructor
      · rintro (hacc | ⟨s2, hs2, hs2i, hs2k⟩)
        · exact Or.inl hacc
        · exact Or.inr ⟨s2, List.mem_cons_of_mem _ hs2, hs2i, hs2k⟩
      · rintro (hacc | ⟨s2, hs2, hs2i, hs2k⟩)
        · exact Or.inl hacc
        · rcases List.mem_cons.1 hs2 with h2 | h2
          · exfalso
            apply h1
            rw [Prod.mk.injEq] at h2
            rw [← h2.2]
            exact hs2i
          · exact Or.inr ⟨s2, h2, hs2i, hs2k⟩

lemma mem_comboSet (dd : DomData) (k : List String) (x : String) :
    x ∈ lookupSet (buildCombos dd) k ↔
      ∃ s, (x, s) ∈ dd ∧ soloKeys dd ∩ s = ∅ ∧ sortF s = k := by
  rw [buildCombos, mem_lookupSet_buildCombosAux]
  simp [lookupSet, alookup]

/-! ### domdata_to_blistdata membership -/

lemma mem_lookupSet_addAllAux (lst : List String) (v : String)
    (acc : List (String × Finset String)) (b x : String) :
    x ∈ lookupSet (lst.foldl (fun bd blist => addToSetDict blist v bd) acc) b ↔
      (b ∈ lst ∧ x = v) ∨ x ∈ lookupSet acc b := by
  induction lst generalizing acc with
  | nil => simp
  | cons a rest ih =>
    simp only [List.foldl_cons]
    rw [ih, mem_lookupSet_addToSetDict]
    constructor
    · rintro (⟨hb, hx⟩ | (⟨hb, hx⟩ | hacc))
      · exact Or.inl ⟨List.mem_cons_of_mem _ hb, hx⟩
      · exact Or.inl ⟨List.mem_cons.2 (Or.inl hb), hx⟩
      · exact Or.inr hacc
    · rintro (⟨hb, hx⟩ | hacc)
      · rcases List.mem_cons.1 hb with h1 | h1
        · exact Or.inr (Or.inl ⟨h1, hx⟩)
        · exact Or.inl ⟨h1, hx⟩
      · exact Or.inr (Or.inr hacc)

lemma mem_lookupSet_blistAux (ds : DomData)
    (acc : List (String × Finset String)) (b x : String) :
    x ∈ lookupSet
        (ds.foldl
          (fun blistdata p =>
            (sortF p.2).foldl (fun bd blist => addToSetDict blist p.1 bd)
              blistdata)
          acc) b ↔
      x ∈ lookupSet acc b ∨ ∃ s, (x, s) ∈ ds ∧ b ∈ s := by
  induction ds generalizing acc with
  | nil => simp
  | cons p rest ih =>
    obtain ⟨dom, s⟩ := p
    simp only [List.foldl_cons]
    rw [ih, mem_lookupSet_addAllAux]
    constructor
    · rintro ((⟨hb, hx⟩ | hacc) | ⟨s2, hs2, hbs2⟩)
      · refine Or.inr ⟨s, List.mem_cons.2 (Or.inl (by rw [hx])), ?_⟩
        rw [sortF, Finset.mem_sort] at hb
        exact hb
      · exact Or.inl hacc
      · exact Or.inr ⟨s2, List.mem_cons_of_mem _ hs2, hbs2⟩
    · rintro (hacc | ⟨s2, hs2, hbs2⟩)
      · exact Or.inl (Or.inr hacc)
      · rcases List.mem_cons.1 hs2 with h1 | h1
        · rw [Prod.mk.injEq] at h1
          refine Or.inl (Or.inl ⟨?_, h1.1⟩)
          rw [sortF, Finset.mem_sort, ← h1.2]
          exact hbs2
        · exact Or.inr ⟨s2, h1, hbs2⟩

lemma mem_blistSet (dd : DomData) (b x : String) :
    x ∈ lookupSet (domdata_to_blistdata dd) b ↔ ∃ s, (x, s) ∈ dd ∧ b ∈ s := by
  rw [domdata_to_blistdata, mem_lookupSet_blistAux]
  simp [lookupSet, alookup]

/-! ### Overlap list and redundancy histogram -/

lemma lookupLevels_listDictAppend_self (k : String) (n : Nat)
    (l : List (String × List Nat)) :
    lookupLevels (listDictAppend k n l) k = lookupLevels l k ++ [n] := by
  induction l with
  | nil => simp [listDictAppend, lookupLevels, alookup]
  | cons p rest ih =>
    obtain ⟨a, b⟩ := p
    by_cases hk : k = a
    · simp [listDictAppend, hk, lookupLevels, alookup]
    · simp only [listDictAppend, if_neg hk]
      have h1 : lookupLevels ((a, b) :: listDictAppend k n rest) k =
          lookupLevels (listDictAppend k n rest) k := by
        simp [lookupLevels, alookup, hk]
      have h2 : lookupLevels ((a, b) :: rest) k = lookupLevels rest k := by
        simp [lookupLevels, alookup, hk]
      rw [h1, h2, ih]

lemma lookupLevels_listDictAppend_ne {k k' : String} (h : k' ≠ k) (n : Nat)
    (l : List (String × List Nat)) :
    lookupLevels (listDictAppend k n l) k' = lookupLevels l k' := by
  induction l with
  | nil => simp [listDictAppend, lookupLevels, alookup, h]
  | cons p rest ih =>
    obtain ⟨a, b⟩ := p
    by_cases hk : k = a
    · have hk' : k' ≠ a := fun he => h (he.trans hk.symm)
      simp [listDictAppend, hk, lookupLevels, alookup, hk']
    · by_cases hk2 : k' = a
      · simp [listDictAppend, hk, lookupLevels, alookup, hk2]
      · simp only [listDictAppend, if_neg hk]
        have h1 : lookupLevels ((a, b) :: listDictAppend k n rest) k' =
            lookupLevels (listDictAppend k n rest) k' := by
          simp [lookupLevels, alookup, hk2]
        have h2 : lookupLevels ((a, b) :: rest) k' = lookupLevels rest k' := by
          simp [lookupLevels, alookup, hk2]
        rw [h1, h2, ih]

lemma lookupLevels_overlapInner (lst : List String) (n : Nat)
    (acc : List (String × List Nat)) (b : String) (hnd : lst.Nodup) :
    lookupLevels (lst.foldl (fun ov blist => listDictAppend blist n ov) acc) b =
      lookupLevels acc b ++ if b ∈ lst then [n] else [] := by
  induction lst generalizing acc with
  | nil => simp
  | cons a rest ih =>
    simp only [List.foldl_cons]
    have hnd1 := List.nodup_cons.1 hnd
    by_cases hb : b = a
    · have hbr : b ∉ rest := by rw [hb]; exact hnd1.1
      rw [ih _ hnd1.2]
      rw [if_neg hbr]
      rw [hb, lookupLevels_listDictAppend_self]
      simp [hb]
    · rw [ih _ hnd1.2, lookupLevels_listDictAppend_ne hb]
      simp [List.mem_cons, hb]

lemma lookupLevels_buildOverlapAux (ds : DomData)
    (acc : List (String × List Nat)) (b : String) :
    lookupLevels
        (ds.foldl
          (fun overlap p =>
            (sortF p.2).foldl (fun ov blist => listDictAppend blist p.2.card ov)
              overlap)
          acc) b =
      lookupLevels acc b ++
        (ds.filter (fun p => b ∈ p.2)).map (fun p => p.2.card) := by
  induction ds generalizing acc with
  | nil => simp
  | cons p rest ih =>
    obtain ⟨dom, s⟩ := p
    simp only [List.foldl_cons]
    rw [ih]
    have hinner := lookupLevels_overlapInner (sortF s) s.card acc b
      (by rw [sortF]; exact Finset.sort_nodup _ s)
    rw [hinner]
    by_cases hb : b ∈ s
    · have hbs : b ∈ sortF s := by rw [sortF, Finset.mem_sort]; exact hb
      rw [if_pos hbs]
      have hf : List.filter (fun p => decide (b ∈ p.2)) ((dom, s) :: rest) =
          (dom, s) :: List.filter (fun p => decide (b ∈ p.2)) rest := by
        simp [List.filter_cons, hb]
      rw [hf]
      simp
    · have hbs : b ∉ sortF s := by rw [sortF, Finset.mem_sort]; exact hb
      rw [if_neg hbs]
      have hf : List.filter (fun p => decide (b ∈ p.2)) ((dom, s) :: rest) =
          List.filter (fun p => decide (b ∈ p.2)) rest := by
        simp [List.filter_cons, hb]
      rw [hf]
      simp

lemma lookupLevels_buildOverlap (dd : DomData) (b : String) :
    lookupLevels (buildOverlap dd) b =
      (dd.filter (fun p => b ∈ p.2)).map (fun p => p.2.card) := by
  rw [buildOverlap, lookupLevels_buildOverlapAux]
  simp [lookupLevels, alookup]

/-- Summing the level histogram over all occurring levels gives the length
of the overlap list. -/
lemma sum_levelHist (levels : List Nat) :
    ∑ n in levels.toFinset, levelHist levels n = levels.length := by
  simp only [levelHist]
  have h1 : levels.toFinset = (levels : Multiset Nat).toFinset := rfl
  have h2 : ∀ n, levels.count n = (levels : Multiset Nat).count n := by
    intro n
    exact (Multiset.coe_count n levels).symm
  rw [h1]
  calc ∑ n in (levels : Multiset Nat).toFinset, levels.count n
      = ∑ n in (levels : Multiset Nat).toFinset,
          (levels : Multiset Nat).count n := by
        refine Finset.sum_congr rfl ?_
        intro n _
        exact h2 n
    _ = Multiset.card (levels : Multiset Nat) :=
        Multiset.toFinset_sum_count_eq _
    _ = levels.length := rfl

/-! ### Higher-level reconciliation lemmas -/

/-- Re-running the reconcile loop against the serialization of its own
output changes nothing and warns about nothing. -/
lemma reconcileLoop_idempotent {domdata : DomData} (hn : keysNodup domdata)
    (prior : List (String × List String)) :
    reconcileLoop (serializeDomData (reconcileLoop prior domdata).2) domdata =
      ([], (reconcileLoop prior domdata).2) := by
  obtain ⟨E, hE1, hE2, hE3⟩ := reconcileLoop_shape prior domdata
  rw [hE1, serializeDomData, List.map_append, reconcileLoop_append]
  have hpart1 : reconcileLoop
      (domdata.map (fun p => (p.1, sortF p.2))) domdata = ([], domdata) := by
    apply reconcileLoop_noop
    intro p hp
    obtain ⟨q, hq, rfl⟩ := List.mem_map.1 hp
    simp only
    have : (sortF q.2).toFinset = q.2 := by
      rw [sortF]
      exact Finset.sort_toFinset _ _
    rw [this]
    exact alookup_of_mem_nodup hn hq
  have hknd : keysNodup (E.map (fun p : String × Finset String =>
      (p.1, sortF p.2))) := by
    unfold keysNodup
    rw [List.map_map]
    exact hE2
  have hnone : ∀ p ∈ E.map (fun p : String × Finset String =>
      (p.1, sortF p.2)), alookup p.1 domdata = none := by
    intro p hp
    obtain ⟨q, hq, rfl⟩ := List.mem_map.1 hp
    exact hE3 q hq
  have hpart2 := reconcileLoop_all_new hknd hnone
  rw [hpart1]
  simp only
  rw [hpart2]
  simp only [List.nil_append]
  have hmaps : (E.map (fun p : String × Finset String => (p.1, sortF p.2))).map
      (fun p : String × List String => (p.1, p.2.toFinset)) = E := by
    rw [List.map_map]
    have h1 : ((fun p : String × List String => (p.1, p.2.toFinset)) ∘
        fun p : String × Finset String => (p.1, sortF p.2)) =
          fun p : String × Finset String => p := by
      funext p
      simp only [Function.comp]
      rw [Prod.mk.injEq]
      refine ⟨rfl, ?_⟩
      rw [sortF]
      exact Finset.sort_toFinset _ _
    rw [h1, List.map_id']
  rw [hmaps]

/-- Every warning emitted by the reconcile loop (with distinct stored
keys) names a domain present in both mappings whose sets differ, and
carries the sorted current set in wasLine and the sorted stored set in
nowLine. -/
lemma reconcileLoop_warnings_origin {P : List (String × List String)}
    {A : DomData} {w : DriftWarning} (hp : keysNodup P)
    (hw : w ∈ (reconcileLoop P A).1) :
    ∃ l s, (w.domain, l) ∈ P ∧ alookup w.domain A = some s ∧
      l.toFinset ≠ s ∧ w = ⟨w.domain, sortF s, sortF l.toFinset⟩ := by
  induction P generalizing A with
  | nil => simp [reconcileLoop] at hw
  | cons q rest ih =>
    obtain ⟨dom, stored⟩ := q
    have hp1 := keysNodup_cons.1 hp
    cases hc : alookup dom A with
    | some current =>
      rw [reconcileLoop] at hw
      simp only [hc] at hw
      by_cases hne : stored.toFinset ≠ current
      · rw [if_pos hne] at hw
        rcases List.mem_cons.1 hw with h1 | h1
        · refine ⟨stored, current, ?_, ?_, hne, ?_⟩
          · rw [h1]
            exact List.mem_cons_self _ _
          · rw [h1]
            exact hc
          · rw [h1]
        · obtain ⟨l, s, hl, hs, hlne, hw2⟩ := ih hp1.2 h1
          exact ⟨l, s, List.mem_cons_of_mem _ hl, hs, hlne, hw2⟩
      · rw [if_neg hne] at hw
        obtain ⟨l, s, hl, hs, hlne, hw2⟩ := ih hp1.2 hw
        exact ⟨l, s, List.mem_cons_of_mem _ hl, hs, hlne, hw2⟩
    | none =>
      rw [reconcileLoop] at hw
      simp only [hc] at hw
      obtain ⟨l, s, hl, hs, hlne, hw2⟩ := ih hp1.2 hw
      have hdd : w.domain ≠ dom := by
        intro he
        apply hp1.1
        rw [← he]
        exact List.mem_map.2 ⟨(w.domain, l), hl, rfl⟩
      cases halook : alookup w.domain A with
      | none =>
        rw [alookup_append_none halook] at hs
        simp [alookup, hdd] at hs
      | some s2 =>
        have := (alookup_append_some halook).symm.trans hs
        refine ⟨l, s, List.mem_cons_of_mem _ hl, ?_, hlne, hw2⟩
        exact this

/-! ### Claim theorems -/

/-- C1 counterexample: with two entries naming the same domain, the
extractor does not keep the attribution set of the first entry naming it
(it keeps the second one's), so first-seen does not win. -/
theorem C1_counterexample :
    alookup "ads.example"
        (json_to_domdata
          [⟨"ads.example", [⟨"list-a"⟩]⟩, ⟨"ads.example", [⟨"list-b"⟩]⟩]) =
      some ({"list-b"} : Finset String) ∧
    alookup "ads.example"
        (json_to_domdata
          [⟨"ads.example", [⟨"list-a"⟩]⟩, ⟨"ads.example", [⟨"list-b"⟩]⟩]) ≠
      some ({"list-a"} : Finset String) := by
  constructor
  · decide
  · decide

/-- C1 (amended): the extractor processes entries in input order and, when
a domain appears in more than one entry, keeps the attribution set built
from the last entry naming that domain (last-seen wins): the resulting set
for each domain equals the set of reason ids of its latest occurrence. -/
theorem C1_last_seen_wins (entries : List LogEntry) (d : String) :
    alookup d (json_to_domdata entries) =
      ((entries.filter (fun e => e.domain == d)).getLast?).map entryBlists :=
  alookup_json_to_domdata entries d

/-- C8: at a log entry whose reasons list is empty, the extractor silently
inserts the domain with an empty blocklist set into the output mapping; it
raises no error and surfaces no anomaly. -/
theorem C8_empty_reasons_inserted :
    json_to_domdata [⟨"tracker.example", []⟩] =
      [("tracker.example", (∅ : Finset String))] := by
  decide

/-- C2: for a domain present in both the stored mapping and the current
run's mapping, a drift warning carrying the domain, the (sorted) previous
blocklist set and the (sorted) new blocklist set is emitted iff the two
sets differ, and in all cases the reconciled mapping keeps the current
run's set for that domain. -/
theorem C2_drift_warning_iff (prior : List (String × List String))
    (domdata : DomData) (d : String) (l : List String) (s : Finset String)
    (hp : keysNodup prior) (hl : alookup d prior = some l)
    (hs : alookup d domdata = some s) :
    ((∃ w ∈ (reconcileLoop prior domdata).1,
        w.domain = d ∧ w.wasLine = sortF s ∧ w.nowLine = sortF l.toFinset) ↔
      l.toFinset ≠ s) ∧
    alookup d (reconcileLoop prior domdata).2 = some s := by
  constructor
  · constructor
    · rintro ⟨w, hw, hwd, _, _⟩
      obtain ⟨l2, hl2, hl2ne, _⟩ := (reconcileLoop_warnings_mem hs w).1 ⟨hw, hwd⟩
      have h3 : some l2 = some l :=
        (alookup_of_mem_nodup hp hl2).symm.trans hl
      rw [← Option.some.inj h3]
      exact hl2ne
    · intro hne
      refine ⟨⟨d, sortF s, sortF l.toFinset⟩, ?_, rfl, rfl, rfl⟩
      exact ((reconcileLoop_warnings_mem hs _).2
        ⟨l, mem_of_alookup_eq_some hl, hne, rfl⟩).1
  · exact reconcileLoop_alookup_some hs

/-- C2 witness: concrete drifting store entry for a.example. -/
theorem C2_drift_warning_iff_witness :
    ((∃ w ∈ (reconcileLoop [("a.example", ["l1"]), ("c.example", ["l3"])]
        [("a.example", {"l2"}), ("b.example", {"l1", "l2"})]).1,
        w.domain = "a.example" ∧ w.wasLine = sortF {"l2"} ∧
          w.nowLine = sortF (["l1"] : List String).toFinset) ↔
      (["l1"] : List String).toFinset ≠ ({"l2"} : Finset String)) ∧
    alookup "a.example"
        (reconcileLoop [("a.example", ["l1"]), ("c.example", ["l3"])]
          [("a.example", {"l2"}), ("b.example", {"l1", "l2"})]).2 =
      some ({"l2"} : Finset String) :=
  C2_drift_warning_iff [("a.example", ["l1"]), ("c.example", ["l3"])]
    [("a.example", {"l2"}), ("b.example", {"l1", "l2"})]
    "a.example" ["l1"] {"l2"} (by decide) (by decide) (by decide)

/-- C3: the reconciled mapping equals the prior stored mapping overridden
by the current run's mapping: a domain in the current run keeps its
current set, a domain present only in the store is carried forward with
its stored set, a missing store file acts as an empty prior mapping, and
the reconciled mapping is persisted back under the same store file
name, leaving every other file untouched. -/
theorem C3_store_reconciler (store : Store) (name : String)
    (domdata : DomData) (d : String) :
    (∀ s, alookup d domdata = some s →
      alookup d (update_domdata_store name domdata store).2.1 = some s) ∧
    (alookup d domdata = none →
      alookup d (update_domdata_store name domdata store).2.1 =
        (alookup d ((store (name ++ ".domdata.json")).getD [])).map
          List.toFinset) ∧
    (store (name ++ ".domdata.json") = none →
      (update_domdata_store name domdata store).2.1 = domdata) ∧
    (update_domdata_store name domdata store).2.2 (name ++ ".domdata.json") =
      some (serializeDomData (update_domdata_store name domdata store).2.1) ∧
    (∀ k, k ≠ name ++ ".domdata.json" →
      (update_domdata_store name domdata store).2.2 k = store k) := by
  refine ⟨?_, ?_, ?_, ?_, ?_⟩
  · intro s hs
    exact reconcileLoop_alookup_some hs
  · intro hnone
    exact reconcileLoop_alookup_none hnone
  · intro hstore
    show (reconcileLoop ((store (name ++ ".domdata.json")).getD []) domdata).2 =
      domdata
    rw [hstore]
    rfl
  · show (if name ++ ".domdata.json" = name ++ ".domdata.json" then _ else _) = _
    rw [if_pos rfl]
    rfl
  · intro k hk
    show (if k = name ++ ".domdata.json" then _ else _) = _
    rw [if_neg hk]

/-- C3 witness: a concrete store with one overlapping domain and one
store-only domain. -/
theorem C3_store_reconciler_witness :
    alookup "a.example"
        (update_domdata_store "profile1"
          [("a.example", {"l2"}), ("b.example", {"l1", "l2"})]
          (fun k => if k = "profile1.domdata.json" then
            some [("a.example", ["l1"]), ("c.example", ["l3"])] else none)).2.1 =
      some ({"l2"} : Finset String) ∧
    alookup "c.example"
        (update_domdata_store "profile1"
          [("a.example", {"l2"}), ("b.example", {"l1", "l2"})]
          (fun k => if k = "profile1.domdata.json" then
            some [("a.example", ["l1"]), ("c.example", ["l3"])] else none)).2.1 =
      some ((["l3"] : List String).toFinset) := by
  constructor
  · exact (C3_store_reconciler
      (fun k => if k = "profile1.domdata.json" then
        some [("a.example", ["l1"]), ("c.example", ["l3"])] else none)
      "profile1" [("a.example", {"l2"}), ("b.example", {"l1", "l2"})]
      "a.example").1 {"l2"} (by decide)
  · have h := (C3_store_reconciler
      (fun k => if k = "profile1.domdata.json" then
        some [("a.example", ["l1"]), ("c.example", ["l3"])] else none)
      "profile1" [("a.example", {"l2"}), ("b.example", {"l1", "l2"})]
      "c.example").2.1 (by decide)
    rw [h]
    decide

/-- C6: running the store reconciler a second time with the identical
current-run data against the store written by the first run emits no
drift warnings and leaves the persisted store unchanged. -/
theorem C6_reconciler_idempotent (store : Store) (name : String)
    (domdata : DomData) (hn : keysNodup domdata) :
    (update_domdata_store name domdata
        (update_domdata_store name domdata store).2.2).1 = [] ∧
    (update_domdata_store name domdata
        (update_domdata_store name domdata store).2.2).2.2 =
      (update_domdata_store name domdata store).2.2 := by
  have hfile : (update_domdata_store name domdata store).2.2
      (name ++ ".domdata.json") =
        some (serializeDomData
          (reconcileLoop ((store (name ++ ".domdata.json")).getD [])
            domdata).2) := by
    show (if name ++ ".domdata.json" = name ++ ".domdata.json"
      then _ else _) = _
    rw [if_pos rfl]
  have hidem := reconcileLoop_idempotent hn
    ((store (name ++ ".domdata.json")).getD [])
  constructor
  · show (reconcileLoop
        (((update_domdata_store name domdata store).2.2
          (name ++ ".domdata.json")).getD []) domdata).1 = []
    rw [hfile]
    show (reconcileLoop (serializeDomData
      (reconcileLoop ((store (name ++ ".domdata.json")).getD []) domdata).2)
      domdata).1 = []
    rw [hidem]
  · show (fun k => if k = name ++ ".domdata.json" then
        some (serializeDomData (reconcileLoop
          (((update_domdata_store name domdata store).2.2
            (name ++ ".domdata.json")).getD []) domdata).2)
      else (update_domdata_store name domdata store).2.2 k) =
      (update_domdata_store name domdata store).2.2
    funext k
    by_cases hk : k = name ++ ".domdata.json"
    · rw [if_pos hk, hfile]
      show _ = (update_domdata_store name domdata store).2.2 k
      rw [hk, hfile]
      show some (serializeDomData (reconcileLoop (serializeDomData
        (reconcileLoop ((store (name ++ ".domdata.json")).getD [])
          domdata).2) domdata).2) = _
      rw [hidem]
    · rw [if_neg hk]

/-- C6 witness: a concrete first and second run. -/
theorem C6_reconciler_idempotent_witness :
    (update_domdata_store "profile1"
        [("a.example", {"l2"}), ("b.example", {"l1", "l2"})]
        (update_domdata_store "profile1"
          [("a.example", {"l2"}), ("b.example", {"l1", "l2"})]
          (fun k => if k = "profile1.domdata.json" then
            some [("a.example", ["l1"]), ("c.example", ["l3"])]
          else none)).2.2).1 = [] ∧
    (update_domdata_store "profile1"
        [("a.example", {"l2"}), ("b.example", {"l1", "l2"})]
        (update_domdata_store "profile1"
          [("a.example", {"l2"}), ("b.example", {"l1", "l2"})]
          (fun k => if k = "profile1.domdata.json" then
            some [("a.example", ["l1"]), ("c.example", ["l3"])]
          else none)).2.2).2.2 =
      (update_domdata_store "profile1"
        [("a.example", {"l2"}), ("b.example", {"l1", "l2"})]
        (fun k => if k = "profile1.domdata.json" then
          some [("a.example", ["l1"]), ("c.example", ["l3"])]
        else none)).2.2 :=
  C6_reconciler_idempotent
    (fun k => if k = "profile1.domdata.json" then
      some [("a.example", ["l1"]), ("c.example", ["l3"])] else none)
    "profile1" [("a.example", {"l2"}), ("b.example", {"l1", "l2"})]
    (by decide)

/-- C10: every drift warning prints the sorted freshly observed
(current-run) set on the line labelled "Was:" and the sorted previously
stored set on the line labelled "Now:" — the "previous" label is attached
to the new data and the "current" label to the old data. -/
theorem C10_drift_labels (prior : List (String × List String))
    (domdata : DomData) (w : DriftWarning) (hp : keysNodup prior)
    (hw : w ∈ (reconcileLoop prior domdata).1) :
    ∃ l s, alookup w.domain prior = some l ∧
      alookup w.domain domdata = some s ∧ l.toFinset ≠ s ∧
      w.wasLine = sortF s ∧ w.nowLine = sortF l.toFinset := by
  obtain ⟨l, s, hl, hs, hlne, hw2⟩ := reconcileLoop_warnings_origin hp hw
  refine ⟨l, s, alookup_of_mem_nodup hp hl, hs, hlne, ?_, ?_⟩
  · rw [hw2]
  · rw [hw2]

/-- C10 witness: the concrete warning emitted for a.example. -/
theorem C10_drift_labels_witness :
    ∃ l s,
      alookup (DriftWarning.domain ⟨"a.example", ["l2"], ["l1"]⟩)
          [("a.example", ["l1"]), ("c.example", ["l3"])] = some l ∧
      alookup (DriftWarning.domain ⟨"a.example", ["l2"], ["l1"]⟩)
          [("a.example", {"l2"}), ("b.example", {"l1", "l2"})] = some s ∧
      l.toFinset ≠ s ∧
      DriftWarning.wasLine ⟨"a.example", ["l2"], ["l1"]⟩ = sortF s ∧
      DriftWarning.nowLine ⟨"a.example", ["l2"], ["l1"]⟩ = sortF l.toFinset := by
  have hs : alookup "a.example"
      [("a.example", ({"l2"} : Finset String)), ("b.example", {"l1", "l2"})] =
        some {"l2"} := by decide
  have hmem := ((@reconcileLoop_warnings_mem
      [("a.example", ["l1"]), ("c.example", ["l3"])]
      [("a.example", {"l2"}), ("b.example", {"l1", "l2"})]
      "a.example" {"l2"} hs
      ⟨"a.example", sortF {"l2"}, sortF (["l1"] : List String).toFinset⟩).2
      ⟨["l1"], by decide, by decide, rfl⟩).1
  have he1 : sortF ({"l2"} : Finset String) = ["l2"] := by
    rw [sortF, Finset.sort_singleton]
  have he2 : sortF (["l1"] : List String).toFinset = ["l1"] := by
    have h : (["l1"] : List String).toFinset = ({"l1"} : Finset String) := by
      decide
    rw [h, sortF, Finset.sort_singleton]
  rw [he1, he2] at hmem
  exact C10_drift_labels [("a.example", ["l1"]), ("c.example", ["l3"])]
    [("a.example", {"l2"}), ("b.example", {"l1", "l2"})]
    ⟨"a.example", ["l2"], ["l1"]⟩ (by decide) hmem

/-- C4: the solo/combo classifier partitions the domains: each domain
either has an attribution set meeting the solo blocklist ids (and then
appears in no combo group) or is placed in exactly one combo group, the
one keyed by the sorted listing of its full attribution set — never both,
never neither. -/
theorem C4_solo_combo_partition (dd : DomData) (hn : keysNodup dd)
    (_hne : dd ≠ []) (_hvals : ∀ p ∈ dd, p.2.Nonempty) (d : String)
    (s : Finset String) (hd : alookup d dd = some s) :
    ((s ∩ soloKeys dd).Nonempty ∧ ∀ k, d ∉ lookupSet (buildCombos dd) k) ∨
    (s ∩ soloKeys dd = ∅ ∧ d ∈ lookupSet (buildCombos dd) (sortF s) ∧
      ∀ k, d ∈ lookupSet (buildCombos dd) k → k = sortF s) := by
  by_cases hint : soloKeys dd ∩ s = ∅
  · right
    refine ⟨by rw [Finset.inter_comm]; exact hint, ?_, ?_⟩
    · rw [mem_comboSet]
      exact ⟨s, mem_of_alookup_eq_some hd, hint, rfl⟩
    · intro k hk
      rw [mem_comboSet] at hk
      obtain ⟨s2, hs2, _, hs2k⟩ := hk
      have he : s2 = s := Option.some.inj
        ((alookup_of_mem_nodup hn hs2).symm.trans hd)
      rw [← hs2k, he]
  · left
    constructor
    · rw [Finset.inter_comm]
      exact Finset.nonempty_iff_ne_empty.2 hint
    · intro k hk
      rw [mem_comboSet] at hk
      obtain ⟨s2, hs2, hs2i, _⟩ := hk
      have he : s2 = s := Option.some.inj
        ((alookup_of_mem_nodup hn hs2).symm.trans hd)
      rw [he] at hs2i
      exact hint hs2i

/-- C4 witness: c.example's set meets no solo id and lands in exactly the
combo group keyed by its sorted set. -/
theorem C4_solo_combo_partition_witness :
    ((({"l2", "l3"} : Finset String) ∩
        soloKeys [("a.example", {"l1"}), ("b.example", {"l1", "l2"}),
          ("c.example", {"l2", "l3"})]).Nonempty ∧
      ∀ k, "c.example" ∉ lookupSet
        (buildCombos [("a.example", {"l1"}), ("b.example", {"l1", "l2"}),
          ("c.example", {"l2", "l3"})]) k) ∨
    (({"l2", "l3"} : Finset String) ∩
        soloKeys [("a.example", {"l1"}), ("b.example", {"l1", "l2"}),
          ("c.example", {"l2", "l3"})] = ∅ ∧
      "c.example" ∈ lookupSet
        (buildCombos [("a.example", {"l1"}), ("b.example", {"l1", "l2"}),
          ("c.example", {"l2", "l3"})]) (sortF {"l2", "l3"}) ∧
      ∀ k, "c.example" ∈ lookupSet
        (buildCombos [("a.example", {"l1"}), ("b.example", {"l1", "l2"}),
          ("c.example", {"l2", "l3"})]) k → k = sortF {"l2", "l3"}) :=
  C4_solo_combo_partition
    [("a.example", {"l1"}), ("b.example", {"l1", "l2"}),
      ("c.example", {"l2", "l3"})]
    (by decide) (by decide) (by decide) "c.example" {"l2", "l3"} (by decide)

/-- C5: the blocklist aggregator is the exact inverse of the domain
mapping: a blocklist id is in a domain's attribution set iff the domain is
in that blocklist's domain set. -/
theorem C5_blistdata_inverse (dd : DomData) (hn : keysNodup dd) (d : String)
    (s : Finset String) (b : String) (hd : alookup d dd = some s) :
    b ∈ s ↔ d ∈ lookupSet (domdata_to_blistdata dd) b := by
  rw [mem_blistSet]
  constructor
  · intro hb
    exact ⟨s, mem_of_alookup_eq_some hd, hb⟩
  · rintro ⟨s2, hs2, hb⟩
    have he : s2 = s := Option.some.inj
      ((alookup_of_mem_nodup hn hs2).symm.trans hd)
    rw [← he]
    exact hb

/-- C5 witness: l2 blocks b.example, so b.example is in l2's domain set. -/
theorem C5_blistdata_inverse_witness :
    "b.example" ∈ lookupSet
      (domdata_to_blistdata [("a.example", {"l1"}),
        ("b.example", {"l1", "l2"}), ("c.example", {"l2", "l3"})]) "l2" :=
  (C5_blistdata_inverse
    [("a.example", {"l1"}), ("b.example", {"l1", "l2"}),
      ("c.example", {"l2", "l3"})]
    (by decide) "b.example" {"l1", "l2"} "l2" (by decide)).1 (by decide)

/-- C7: histogram conservation: for each blocklist id the histogram counts
summed over all levels equal the number of distinct domains whose set
contains the id, and the overlap list records, for each such domain, one
observation equal to the size of that domain's attribution set. -/
theorem C7_histogram_conservation (dd : DomData) (hn : keysNodup dd)
    (b : String) :
    (∑ n in (lookupLevels (buildOverlap dd) b).toFinset,
        levelHist (lookupLevels (buildOverlap dd) b) n) =
      ((dd.filter (fun p => b ∈ p.2)).map Prod.fst).toFinset.card ∧
    lookupLevels (buildOverlap dd) b =
      (dd.filter (fun p => b ∈ p.2)).map (fun p => p.2.card) := by
  have hov := lookupLevels_buildOverlap dd b
  refine ⟨?_, hov⟩
  rw [sum_levelHist, hov, List.length_map]
  have hsub : ((dd.filter (fun p => b ∈ p.2)).map Prod.fst).Nodup :=
    List.Nodup.sublist (List.Sublist.map Prod.fst (List.filter_sublist dd)) hn
  rw [List.toFinset_card_of_nodup hsub, List.length_map]

/-- C7 witness: l1 appears for a.example (level 1) and b.example
(level 2). -/
theorem C7_histogram_conservation_witness :
    (∑ n in (lookupLevels (buildOverlap [("a.example", {"l1"}),
          ("b.example", {"l1", "l2"}), ("c.example", {"l2", "l3"})])
          "l1").toFinset,
        levelHist (lookupLevels (buildOverlap [("a.example", {"l1"}),
          ("b.example", {"l1", "l2"}), ("c.example", {"l2", "l3"})])
          "l1") n) =
      (([("a.example", ({"l1"} : Finset String)),
          ("b.example", {"l1", "l2"}),
          ("c.example", {"l2", "l3"})].filter
            (fun p => "l1" ∈ p.2)).map Prod.fst).toFinset.card ∧
    lookupLevels (buildOverlap [("a.example", {"l1"}),
        ("b.example", {"l1", "l2"}), ("c.example", {"l2", "l3"})]) "l1" =
      ([("a.example", ({"l1"} : Finset String)), ("b.example", {"l1", "l2"}),
          ("c.example", {"l2", "l3"})].filter
            (fun p => "l1" ∈ p.2)).map (fun p => p.2.card) :=
  C7_histogram_conservation
    [("a.example", {"l1"}), ("b.example", {"l1", "l2"}),
      ("c.example", {"l2", "l3"})]
    (by decide) "l1"

/-- C9: the solo/combo classification is order-independent: permuting the
domain mapping leaves the solo sets, the solo key set and every combo
group unchanged. -/
theorem C9_order_independence (dd1 dd2 : DomData) (hperm : dd1.Perm dd2) :
    (∀ b, lookupSet (buildSolos dd1) b = lookupSet (buildSolos dd2) b) ∧
    soloKeys dd1 = soloKeys dd2 ∧
    (∀ k, lookupSet (buildCombos dd1) k = lookupSet (buildCombos dd2) k) := by
  have hsk : soloKeys dd1 = soloKeys dd2 := by
    apply Finset.ext
    intro b
    rw [mem_soloKeys, mem_soloKeys]
    constructor
    · rintro ⟨x, hx⟩
      exact ⟨x, hperm.mem_iff.1 hx⟩
    · rintro ⟨x, hx⟩
      exact ⟨x, hperm.mem_iff.2 hx⟩
  refine ⟨?_, hsk, ?_⟩
  · intro b
    apply Finset.ext
    intro x
    rw [mem_soloSet, mem_soloSet]
    exact hperm.mem_iff
  · intro k
    apply Finset.ext
    intro x
    rw [mem_comboSet, mem_comboSet]
    constructor
    · rintro ⟨s, hs, hi, hk2⟩
      refine ⟨s, hperm.mem_iff.1 hs, ?_, hk2⟩
      rw [← hsk]
      exact hi
    · rintro ⟨s, hs, hi, hk2⟩
      refine ⟨s, hperm.mem_iff.2 hs, ?_, hk2⟩
      rw [hsk]
      exact hi

/-- C9 witness: a two-element mapping and its reversal classify alike. -/
theorem C9_order_independence_witness :
    lookupSet (buildSolos [("a.example", ({"l1"} : Finset String)),
        ("b.example", {"l1", "l2"})]) "l1" =
      lookupSet (buildSolos [("b.example", ({"l1", "l2"} : Finset String)),
        ("a.example", {"l1"})]) "l1" ∧
    soloKeys [("a.example", ({"l1"} : Finset String)),
        ("b.example", {"l1", "l2"})] =
      soloKeys [("b.example", ({"l1", "l2"} : Finset String)),
        ("a.example", {"l1"})] :=
  ⟨(C9_order_independence
      [("a.example", {"l1"}), ("b.example", {"l1", "l2"})]
      [("b.example", {"l1", "l2"}), ("a.example", {"l1"})]
      (by decide)).1 "l1",
   (C9_order_independence
      [("a.example", {"l1"}), ("b.example", {"l1", "l2"})]
      [("b.example", {"l1", "l2"}), ("a.example", {"l1"})]
      (by decide)).2.1⟩

end WhatsBlocking
